import Mathlib

/-!
Shallow embedding of the `datautils` evaluation-metric library.

Scores and labels (Go `float64` slices) are modelled as `List ℚ`; the
library's arithmetic on them is comparison, counting, division and
subtraction, all exact over `ℚ`.  The rank-discount `math.Log2` is modelled
over `ℝ` with `Real.logb 2`.  Functions that `panic` in Go are modelled as
`Except`/`Option` returning no result on the panicking inputs.
-/

namespace Datautils

/-- Modelled from the spec: `floats.Argsort` is a gonum dependency whose code
is not part of this repository.  The spec describes the ranking permutation as
a *stable* ascending argsort of the values, so it is realised here as a stable
insertion sort of the index array `[0, …, n−1]` keyed by the value at each
index (`List.insertionSort` with a `≤` key relation is stable). -/
def argsort (xs : List ℚ) : List Nat :=
  List.insertionSort (fun a b => xs.getD a 0 ≤ xs.getD b 0) (List.range xs.length)

/-- Modelled from the spec: gonum `floats.Max`, the maximum element of a
slice (the zero default for the empty slice is unreachable in the library:
the guarded calls always pass a nonempty slice). -/
def floatsMax : List ℚ → ℚ
  | [] => 0
  | x :: t => t.foldl max x

/-- RankingEvaluation from `part_000`: original relevancies plus the two
descending rank permutations. -/
structure RankingEvaluation where
  Relevancies : List ℚ
  PredictedRankInd : List Nat
  PerfectRankInd : List Nat
  deriving DecidableEq

/-- Body of `NewRankingEvaluation` after the length check: argsort both
input slices ascending and reverse the index arrays (`reverse(predInd)`,
`reverse(perfInd)` in the source). -/
def buildRankingEvaluation (predictions labels : List ℚ) : RankingEvaluation :=
  ⟨labels, (argsort predictions).reverse, (argsort labels).reverse⟩

/-- `NewRankingEvaluation`: panics (modelled as `Except.error`) on a length
mismatch, otherwise builds the evaluation. -/
def NewRankingEvaluation (predictions labels : List ℚ) :
    Except String RankingEvaluation :=
  if predictions.length ≠ labels.length then
    Except.error "Prediction/Label length mismatch"
  else
    Except.ok (buildRankingEvaluation predictions labels)

/-- `discountedCumulativeGain` (unexported helper): sum over the first `k`
ranks of `rel(Relevancies[rankings[i]]) / log2(i+2)`. -/
noncomputable def RankingEvaluation.discountedCumulativeGain
    (r : RankingEvaluation) (k : Nat) (rankings : List Nat) (rel : ℚ → ℝ) : ℝ :=
  ((List.range k).map
    (fun i => rel (r.Relevancies.getD (rankings.getD i 0) 0) /
      Real.logb 2 ((i : ℝ) + 2))).sum

/-- `NormalisedDiscountedCumulativeGain`: panics (modelled as `none`) when
`k` is outside `[1, len(Relevancies)]`; returns `1.0` when the maximum
relevancy is `0`; otherwise the ratio of the discounted gains of the
predicted and the perfect ranking. -/
noncomputable def RankingEvaluation.NormalisedDiscountedCumulativeGain
    (r : RankingEvaluation) (k : Nat) (rel : ℚ → ℝ) : Option ℝ :=
  if k < 1 ∨ r.Relevancies.length < k then none
  else if floatsMax r.Relevancies = 0 then some 1
  else some (r.discountedCumulativeGain k r.PredictedRankInd rel /
    r.discountedCumulativeGain k r.PerfectRankInd rel)

/-- PrecisionRecallCurve from the source, including the unexported
`positives` count used by `RPrecision`. -/
structure PrecisionRecallCurve where
  Precision : List ℚ
  Recall : List ℚ
  Thresholds : List ℚ
  positives : Nat
  deriving DecidableEq

/-- One step of the hit counter of the curve-construction loop:
`if labels[ind[i]] > 0 { hits++ }`. -/
def nextHits (labels : List ℚ) (i hits : Nat) : Nat :=
  if 0 < labels.getD i 0 then hits + 1 else hits

/-- The recording loop of `NewPrecisionRecallCurve`, walking the ascending
permutation from its end (here: walking its reversal from the front).  At
each step it records the pair `(precision, recall) = (hits/(k+1), hits/positives)`
and stops, inclusively, at the first step where recall equals `1`. -/
def prSteps (labels : List ℚ) (positives : Nat) :
    List Nat → Nat → Nat → List (ℚ × ℚ)
  | [], _, _ => []
  | i :: rest, hits, k =>
    if ((nextHits labels i hits : ℚ) / (positives : ℚ)) = 1 then
      [((nextHits labels i hits : ℚ) / ((k : ℚ) + 1),
        (nextHits labels i hits : ℚ) / (positives : ℚ))]
    else
      ((nextHits labels i hits : ℚ) / ((k : ℚ) + 1),
        (nextHits labels i hits : ℚ) / (positives : ℚ)) ::
        prSteps labels positives rest (nextHits labels i hits) (k + 1)

/-- Body of `NewPrecisionRecallCurve` after the length check.  Degenerate
zero-positives case: `([1], [0], [])`.  General case: record the truncated
walk, reverse the recorded precision/recall arrays, append the anchor point
`(1, 0)`, and keep the `m` highest sorted scores as thresholds
(`thresholds[len(thresholds)-k-1:]` in the source, with `m = k+1` recorded
steps). -/
def buildPRC (predictions labels : List ℚ) : PrecisionRecallCurve :=
  if labels.countP (fun x => decide (0 < x)) = 0 then
    ⟨[1], [0], [], 0⟩
  else
    ⟨((prSteps labels (labels.countP (fun x => decide (0 < x)))
        (argsort predictions).reverse 0 0).map Prod.fst).reverse ++ [1],
     ((prSteps labels (labels.countP (fun x => decide (0 < x)))
        (argsort predictions).reverse 0 0).map Prod.snd).reverse ++ [0],
     ((argsort predictions).map (fun i => predictions.getD i 0)).drop
       (((argsort predictions).map (fun i => predictions.getD i 0)).length -
         (prSteps labels (labels.countP (fun x => decide (0 < x)))
           (argsort predictions).reverse 0 0).length),
     labels.countP (fun x => decide (0 < x))⟩

/-- `NewPrecisionRecallCurve`: panics (modelled as `Except.error`) on a
length mismatch, otherwise builds the curve. -/
def NewPrecisionRecallCurve (predictions labels : List ℚ) :
    Except String PrecisionRecallCurve :=
  if predictions.length ≠ labels.length then
    Except.error "Prediction/Label length mismatch"
  else
    Except.ok (buildPRC predictions labels)

/-- `AveragePrecision`: `-Σ_{i<len-1} (Recall[i+1] - Recall[i]) * Precision[i]`. -/
def PrecisionRecallCurve.AveragePrecision (c : PrecisionRecallCurve) : ℚ :=
  -(((List.range (c.Precision.length - 1)).map
      (fun i => (c.Recall.getD (i + 1) 0 - c.Recall.getD i 0) *
        c.Precision.getD i 0)).sum)

/-- `RPrecision`: `Precision[len(Precision)-1-positives]`. -/
def PrecisionRecallCurve.RPrecision (c : PrecisionRecallCurve) : ℚ :=
  c.Precision.getD (c.Precision.length - 1 - c.positives) 0

/-- ConfusionMatrix counts from the source (`int` fields; they are only ever
incremented, so `Nat` is faithful). -/
structure ConfusionMatrix where
  Observations : Nat
  Pos : Nat
  Neg : Nat
  TruePos : Nat
  TrueNeg : Nat
  FalsePos : Nat
  FalseNeg : Nat
  deriving DecidableEq

/-- One iteration of the `NewConfusionMatrix` loop on the pair
`(predictions[i], labels[i])`: predicted positive iff the score is `≥`
threshold, actual positive iff the label equals `1`. -/
def cmStep (threshold : ℚ) (m : ConfusionMatrix) (pv : ℚ × ℚ) : ConfusionMatrix :=
  if pv.2 = 1 then
    if threshold ≤ pv.1 then
      { m with Observations := m.Observations + 1, Pos := m.Pos + 1,
               TruePos := m.TruePos + 1 }
    else
      { m with Observations := m.Observations + 1, Pos := m.Pos + 1,
               FalseNeg := m.FalseNeg + 1 }
  else
    if threshold ≤ pv.1 then
      { m with Observations := m.Observations + 1, Neg := m.Neg + 1,
               FalsePos := m.FalsePos + 1 }
    else
      { m with Observations := m.Observations + 1, Neg := m.Neg + 1,
               TrueNeg := m.TrueNeg + 1 }

/-- `NewConfusionMatrix`: iterates over `labels`, indexing `predictions` at
the same position.  The source performs no length check; it panics with an
index-out-of-range (modelled as `none`) exactly when `predictions` is
shorter than `labels`. -/
def NewConfusionMatrix (predictions labels : List ℚ) (threshold : ℚ) :
    Option ConfusionMatrix :=
  if labels.length ≤ predictions.length then
    some (((predictions.take labels.length).zip labels).foldl
      (cmStep threshold) ⟨0, 0, 0, 0, 0, 0, 0⟩)
  else none

/-- `ConfusionMatrix.Precision`: `TruePos / (TruePos + FalsePos)`. -/
def ConfusionMatrix.Precision (c : ConfusionMatrix) : ℚ :=
  (c.TruePos : ℚ) / ((c.TruePos : ℚ) + (c.FalsePos : ℚ))

/-- `ConfusionMatrix.Recall`: `TruePos / (TruePos + FalseNeg)`. -/
def ConfusionMatrix.Recall (c : ConfusionMatrix) : ℚ :=
  (c.TruePos : ℚ) / ((c.TruePos : ℚ) + (c.FalseNeg : ℚ))

/-- `ConfusionMatrix.Accuracy`: `(TrueNeg + TruePos) / Observations`. -/
def ConfusionMatrix.Accuracy (c : ConfusionMatrix) : ℚ :=
  ((c.TrueNeg : ℚ) + (c.TruePos : ℚ)) / (c.Observations : ℚ)

/-- `ConfusionMatrix.F1`: `2 * (Precision * Recall) / (Precision + Recall)`. -/
def ConfusionMatrix.F1 (c : ConfusionMatrix) : ℚ :=
  2 * ((c.Precision * c.Recall) / (c.Precision + c.Recall))

/-- Forward-order value of the average-precision sum: starting from a
previous recall value, `apF prev [(p₀,r₀), (p₁,r₁), …] =
(r₀ − prev)·p₀ + (r₁ − r₀)·p₁ + …`. -/
def apF : ℚ → List (ℚ × ℚ) → ℚ
  | _, [] => 0
  | prev, (p, r) :: t => (r - prev) * p + apF r t

/-- Sum of `(r_{i+1} − r_i) * p_i` over adjacent pairs of a zipped
(precision, recall) list. -/
def pairSum : List (ℚ × ℚ) → ℚ
  | (p0, r0) :: (p1, r1) :: t => (r1 - r0) * p0 + pairSum ((p1, r1) :: t)
  | _ => 0


/-- Count-based invariant of the confusion-matrix fold: observations split
into actual positives and negatives, which split into the four quadrants. -/
def cmInv (m : ConfusionMatrix) : Prop :=
  m.Observations = m.Pos + m.Neg ∧ m.Pos = m.TruePos + m.FalseNeg ∧
    m.Neg = m.TrueNeg + m.FalsePos

/-! ### Generic list/sum helpers -/

theorem sum_map_range_eq (f : ℕ → ℝ) (k : ℕ) :
    ((List.range k).map f).sum = ∑ i in Finset.range k, f i := by
  induction k with
  | zero => simp
  | succ n ih => rw [List.range_succ, Finset.sum_range_succ, List.map_append,
      List.sum_append, ih]; simp

theorem pair_sublist_range {i j n : ℕ} (hij : i < j) (hj : j < n) :
    [i, j].Sublist (List.range n) := by
  induction n with
  | zero => omega
  | succ m ih =>
    rw [List.range_succ]
    rcases Nat.lt_or_ge j m with h | h
    · exact (ih h).trans (List.sublist_append_left _ _)
    · have hj' : j = m := by omega
      subst hj'
      exact List.Sublist.append
        (List.singleton_sublist.mpr (List.mem_range.mpr hij)) (List.Sublist.refl _)

/-! ### argsort: permutation, sortedness, stability -/

theorem argsort_perm (xs : List ℚ) : List.Perm (argsort xs) (List.range xs.length) :=
  List.perm_insertionSort _ _

theorem argsort_length (xs : List ℚ) : (argsort xs).length = xs.length := by
  rw [(argsort_perm xs).length_eq, List.length_range]

theorem argsort_sorted (xs : List ℚ) :
    List.Pairwise (fun a b => xs.getD a 0 ≤ xs.getD b 0) (argsort xs) := by
  haveI : IsTotal Nat (fun a b => xs.getD a 0 ≤ xs.getD b 0) :=
    ⟨fun a b => le_total _ _⟩
  haveI : IsTrans Nat (fun a b => xs.getD a 0 ≤ xs.getD b 0) :=
    ⟨fun a b c hab hbc => le_trans hab hbc⟩
  exact List.sorted_insertionSort _ _

theorem argsort_stable (xs : List ℚ) {i j : ℕ} (hij : i < j) (hj : j < xs.length)
    (heq : xs.getD i 0 = xs.getD j 0) : [i, j].Sublist (argsort xs) :=
  List.pair_sublist_insertionSort (le_of_eq heq) (pair_sublist_range hij hj)

/-! ### Claim C8 -/

/-- C8: the predicted and perfect rank permutations are a stable ascending
argsort of the corresponding value array followed by a reversal of the index
array; in the ascending permutation equal-valued indices keep their original
relative order, and in the reversed (descending) permutation they appear in
the reverse of their original order. -/
theorem ranking_stable_argsort :
    (∀ p l : List ℚ,
      (buildRankingEvaluation p l).PredictedRankInd = (argsort p).reverse ∧
      (buildRankingEvaluation p l).PerfectRankInd = (argsort l).reverse) ∧
    (∀ xs : List ℚ, List.Perm (argsort xs) (List.range xs.length)) ∧
    (∀ xs : List ℚ, List.Pairwise (fun a b => xs.getD a 0 ≤ xs.getD b 0) (argsort xs)) ∧
    (∀ (xs : List ℚ) (i j : ℕ), i < j → j < xs.length → xs.getD i 0 = xs.getD j 0 →
      [i, j].Sublist (argsort xs) ∧ [j, i].Sublist (argsort xs).reverse) := by
  refine ⟨fun p l => ⟨rfl, rfl⟩, argsort_perm, argsort_sorted,
    fun xs i j hij hj heq => ?_⟩
  have h1 := argsort_stable xs hij hj heq
  exact ⟨h1, by simpa using h1.reverse⟩

/-- Witness for C8 at scores `[5, 3, 5]` with the tie between indices 0 and 2. -/
theorem ranking_stable_argsort_witness :
    [0, 2].Sublist (argsort [5, 3, 5]) ∧ [2, 0].Sublist (argsort [5, 3, 5]).reverse :=
  ranking_stable_argsort.2.2.2 [5, 3, 5] 0 2 (by decide) (by decide) rfl

/-! ### Claim C5 -/

/-- C5: for every valid input and every `k` in `[1, n]` and every relevancy
function, NDCG is the ratio of the discounted gains of the predicted and the
perfect rankings (each the sum of `rel(relevancies[ranking[i]]) / log2(i+2)`
over `i < k`), except that it is exactly `1` when the maximum relevancy is 0. -/
theorem ndcg_formula (p l : List ℚ) (h : p.length = l.length) (k : Nat)
    (hk1 : 1 ≤ k) (hk2 : k ≤ l.length) (rel : ℚ → ℝ) :
    (floatsMax l = 0 →
      (buildRankingEvaluation p l).NormalisedDiscountedCumulativeGain k rel = some 1) ∧
    (floatsMax l ≠ 0 →
      (buildRankingEvaluation p l).NormalisedDiscountedCumulativeGain k rel =
        some ((∑ i in Finset.range k,
            rel (l.getD ((buildRankingEvaluation p l).PredictedRankInd.getD i 0) 0) /
              Real.logb 2 ((i : ℝ) + 2)) /
          (∑ i in Finset.range k,
            rel (l.getD ((buildRankingEvaluation p l).PerfectRankInd.getD i 0) 0) /
              Real.logb 2 ((i : ℝ) + 2)))) := by
  have hrel : (buildRankingEvaluation p l).Relevancies = l := rfl
  have hb : ¬(k < 1 ∨ (buildRankingEvaluation p l).Relevancies.length < k) := by
    rw [hrel]; omega
  constructor
  · intro hmax
    rw [RankingEvaluation.NormalisedDiscountedCumulativeGain, if_neg hb, if_pos (hrel ▸ hmax)]
  · intro hmax
    rw [RankingEvaluation.NormalisedDiscountedCumulativeGain, if_neg hb,
      if_neg (hrel ▸ hmax), RankingEvaluation.discountedCumulativeGain,
      RankingEvaluation.discountedCumulativeGain, sum_map_range_eq, sum_map_range_eq]
    rfl

/-- Witness for C5: two scores, all relevancies zero, `k = 1`. -/
theorem ndcg_formula_witness :
    (buildRankingEvaluation [(1:ℚ)/2, 1/4] [0, 0]).NormalisedDiscountedCumulativeGain 1
      (fun q => (q : ℝ)) = some 1 :=
  (ndcg_formula [(1:ℚ)/2, 1/4] [0, 0] rfl 1 (by decide) (by decide)
    (fun q => (q : ℝ))).1 (by simp [floatsMax, List.foldl])

/-! ### Claim C7 -/

/-- C7 counterexample: the confusion-matrix builder produces a result on a
length-mismatched input (2 predictions, 1 label) instead of failing. -/
theorem length_check_cex :
    [(1:ℚ)/2, 1/2].length ≠ [(1:ℚ)].length ∧
    (NewConfusionMatrix [(1:ℚ)/2, 1/2] [(1:ℚ)] (3/10)).isSome = true := by
  constructor
  · decide
  · rw [NewConfusionMatrix, if_pos (by decide)]; rfl

/-- C7 amended: the ranking evaluator and the precision-recall curve builder
fail with a length-mismatch error whenever the input lengths differ, and
produce no result; the confusion-matrix builder performs no length check: it
fails (index out of range) exactly when `predictions` is shorter than
`labels`, and silently produces a result whenever `len(predictions) ≥
len(labels)`. -/
theorem constructor_length_checks :
    (∀ p l : List ℚ, p.length ≠ l.length →
      NewRankingEvaluation p l = Except.error "Prediction/Label length mismatch") ∧
    (∀ p l : List ℚ, p.length ≠ l.length →
      NewPrecisionRecallCurve p l = Except.error "Prediction/Label length mismatch") ∧
    (∀ (p l : List ℚ) (t : ℚ), p.length < l.length → NewConfusionMatrix p l t = none) ∧
    (∀ (p l : List ℚ) (t : ℚ), l.length ≤ p.length →
      (NewConfusionMatrix p l t).isSome = true) := by
  refine ⟨fun p l h => ?_, fun p l h => ?_, fun p l t h => ?_, fun p l t h => ?_⟩
  · rw [NewRankingEvaluation, if_pos h]
  · rw [NewPrecisionRecallCurve, if_pos h]
  · rw [NewConfusionMatrix, if_neg (by omega)]
  · rw [NewConfusionMatrix, if_pos h]; rfl

/-- Witness for C7 (amended) at concrete mismatched inputs. -/
theorem constructor_length_checks_witness :
    NewRankingEvaluation [(1:ℚ)] [] = Except.error "Prediction/Label length mismatch" ∧
    NewPrecisionRecallCurve [(1:ℚ)] [] = Except.error "Prediction/Label length mismatch" ∧
    NewConfusionMatrix [] [(1:ℚ)] 0 = none :=
  ⟨constructor_length_checks.1 [(1:ℚ)] [] (by decide),
   constructor_length_checks.2.1 [(1:ℚ)] [] (by decide),
   constructor_length_checks.2.2.1 [] [(1:ℚ)] 0 (by decide)⟩

/-! ### Claim C9 -/

theorem cmStep_inv (t : ℚ) (m : ConfusionMatrix) (x : ℚ × ℚ) (h : cmInv m) :
    cmInv (cmStep t m x) := by
  obtain ⟨h1, h2, h3⟩ := h
  rw [cmStep]
  split <;> split <;> exact ⟨by simp; omega, by simp; omega, by simp; omega⟩

theorem cmStep_obs (t : ℚ) (m : ConfusionMatrix) (x : ℚ × ℚ) :
    (cmStep t m x).Observations = m.Observations + 1 := by
  rw [cmStep]; split <;> split <;> rfl

theorem foldl_cmStep_inv (t : ℚ) :
    ∀ (L : List (ℚ × ℚ)) (m : ConfusionMatrix), cmInv m → cmInv (L.foldl (cmStep t) m)
  | [], _, h => h
  | x :: L, m, h => foldl_cmStep_inv t L _ (cmStep_inv t m x h)

theorem foldl_cmStep_obs (t : ℚ) :
    ∀ (L : List (ℚ × ℚ)) (m : ConfusionMatrix),
      (L.foldl (cmStep t) m).Observations = m.Observations + L.length
  | [], _ => rfl
  | x :: L, m => by
    rw [List.foldl_cons, foldl_cmStep_obs t L _, cmStep_obs]
    simp [List.length_cons]; omega

/-- C9: whenever the confusion-matrix builder returns a result (which needs
`len(predictions) ≥ len(labels)`), the counts satisfy `Observations =
len(labels)`, `Observations = Pos + Neg`, `Pos = TruePos + FalseNeg`,
`Neg = TrueNeg + FalsePos`, hence `Observations` is the sum of the four
quadrants. -/
theorem confusionMatrix_invariants (p l : List ℚ) (t : ℚ) (h : l.length ≤ p.length)
    (m : ConfusionMatrix) (hm : NewConfusionMatrix p l t = some m) :
    m.Observations = l.length ∧ m.Observations = m.Pos + m.Neg ∧
    m.Pos = m.TruePos + m.FalseNeg ∧ m.Neg = m.TrueNeg + m.FalsePos ∧
    m.Observations = m.TruePos + m.TrueNeg + m.FalsePos + m.FalseNeg := by
  rw [NewConfusionMatrix, if_pos h] at hm
  injection hm with hm
  subst hm
  have hlen : ((p.take l.length).zip l).length = l.length := by
    rw [List.length_zip, List.length_take]
    omega
  have hobs := foldl_cmStep_obs t ((p.take l.length).zip l) ⟨0, 0, 0, 0, 0, 0, 0⟩
  have hinv := foldl_cmStep_inv t ((p.take l.length).zip l) ⟨0, 0, 0, 0, 0, 0, 0⟩
    ⟨rfl, rfl, rfl⟩
  obtain ⟨h1, h2, h3⟩ := hinv
  rw [hlen] at hobs
  rw [show (⟨0, 0, 0, 0, 0, 0, 0⟩ : ConfusionMatrix).Observations = 0 from rfl] at hobs
  refine ⟨by omega, h1, h2, h3, by omega⟩

/-- Witness for C9 at the concrete input of the C2 scenario. -/
theorem confusionMatrix_invariants_witness :
    (4 : Nat) = [(0:ℚ), 1, 1, 0].length ∧ (4 : Nat) = 2 + 2 ∧ (2 : Nat) = 2 + 0 ∧
    (2 : Nat) = 2 + 0 ∧ (4 : Nat) = 2 + 2 + 0 + 0 :=
  confusionMatrix_invariants [1/10, 9/10, 3/5, 3/10] [0, 1, 1, 0] (1/2) (by decide)
    ⟨4, 2, 2, 2, 2, 0, 0⟩ (by norm_num [NewConfusionMatrix, cmStep, List.take,
      List.zip, List.zipWith, List.foldl])


/-! ### Claim C2 -/

/-- C2 counterexample: at scores `[0.1, 0.9, 0.6, 0.3]`, labels
`[0, 1, 1, 0]`, threshold `0.5`, the code yields `TruePos = 2` and
`FalseNeg = 0` (both positives score at or above the threshold), not the
claimed `TruePos = 1, FalseNeg = 1`; recall is `1`, not `0.5`, and accuracy
is `1`, not `0.75`. -/
theorem confusionMatrix_scenario_cex :
    NewConfusionMatrix [1/10, 9/10, 3/5, 3/10] [0, 1, 1, 0] (1/2) =
      some ⟨4, 2, 2, 2, 2, 0, 0⟩ ∧
    ConfusionMatrix.TruePos ⟨4, 2, 2, 2, 2, 0, 0⟩ ≠ 1 ∧
    ConfusionMatrix.FalseNeg ⟨4, 2, 2, 2, 2, 0, 0⟩ ≠ 1 ∧
    ConfusionMatrix.Recall ⟨4, 2, 2, 2, 2, 0, 0⟩ ≠ 1/2 ∧
    ConfusionMatrix.Accuracy ⟨4, 2, 2, 2, 2, 0, 0⟩ ≠ 3/4 := by
  refine ⟨by norm_num [NewConfusionMatrix, cmStep, List.take, List.zip,
    List.zipWith, List.foldl], by decide, by decide, ?_, ?_⟩
  · norm_num [ConfusionMatrix.Recall]
  · norm_num [ConfusionMatrix.Accuracy]

/-- C2 amended: at scores `[0.1, 0.9, 0.6, 0.3]`, labels `[0, 1, 1, 0]`,
threshold `0.5`, the confusion matrix has `TruePos = 2, FalsePos = 0,
TrueNeg = 2, FalseNeg = 0`, and `precision = 1`, `recall = 1`,
`accuracy = 1`. -/
theorem confusionMatrix_scenario :
    NewConfusionMatrix [1/10, 9/10, 3/5, 3/10] [0, 1, 1, 0] (1/2) =
      some ⟨4, 2, 2, 2, 2, 0, 0⟩ ∧
    ConfusionMatrix.Precision ⟨4, 2, 2, 2, 2, 0, 0⟩ = 1 ∧
    ConfusionMatrix.Recall ⟨4, 2, 2, 2, 2, 0, 0⟩ = 1 ∧
    ConfusionMatrix.Accuracy ⟨4, 2, 2, 2, 2, 0, 0⟩ = 1 := by
  refine ⟨by norm_num [NewConfusionMatrix, cmStep, List.take, List.zip,
    List.zipWith, List.foldl], ?_, ?_, ?_⟩
  · norm_num [ConfusionMatrix.Precision]
  · norm_num [ConfusionMatrix.Recall]
  · norm_num [ConfusionMatrix.Accuracy]

/-! ### Claim C4 -/

/-- C4: at scores `[0.1, 0.4, 0.35, 0.8]`, labels `[0, 0, 1, 1]`, the curve
is `Precision = [2/3, 1/2, 1, 1]`, `Recall = [1, 1/2, 1/2, 0]`,
`Thresholds = [0.35, 0.4, 0.8]`, and the average precision is `5/6`. -/
theorem prCurve_scenario :
    NewPrecisionRecallCurve [1/10, 2/5, 7/20, 4/5] [0, 0, 1, 1] =
      Except.ok ⟨[2/3, 1/2, 1, 1], [1, 1/2, 1/2, 0], [7/20, 2/5, 4/5], 2⟩ ∧
    PrecisionRecallCurve.AveragePrecision
      ⟨[2/3, 1/2, 1, 1], [1, 1/2, 1/2, 0], [7/20, 2/5, 4/5], 2⟩ = 5/6 := by
  constructor
  · rw [NewPrecisionRecallCurve, if_neg (by decide)]
    exact congrArg Except.ok (by norm_num [buildPRC, prSteps, nextHits, argsort,
      List.insertionSort, List.orderedInsert, List.range_succ, List.countP,
      List.countP.go])
  · norm_num [PrecisionRecallCurve.AveragePrecision, List.range_succ]

/-! ### Claim C1, counterexample -/

/-- C1 counterexample: at scores `[0.1, 0.4, 0.35, 0.8]`, labels
`[0, 0, 1, 1]`, the recall sequence is `[1, 1/2, 1/2, 0]`, which is not
non-decreasing from index 0 (it drops from `1` to `1/2` at the first step). -/
theorem recall_not_nondecreasing_cex :
    ¬ (∀ i, i + 1 < (buildPRC [1/10, 2/5, 7/20, 4/5] [0, 0, 1, 1]).Recall.length →
      (buildPRC [1/10, 2/5, 7/20, 4/5] [0, 0, 1, 1]).Recall.getD i 0 ≤
        (buildPRC [1/10, 2/5, 7/20, 4/5] [0, 0, 1, 1]).Recall.getD (i + 1) 0) := by
  intro hcl
  have hc : buildPRC [1/10, 2/5, 7/20, 4/5] [0, 0, 1, 1] =
      ⟨[2/3, 1/2, 1, 1], [1, 1/2, 1/2, 0], [7/20, 2/5, 4/5], 2⟩ := by
    norm_num [buildPRC, prSteps, nextHits, argsort, List.insertionSort,
      List.orderedInsert, List.range_succ, List.countP, List.countP.go]
  rw [hc] at hcl
  have h0 := hcl 0 (by norm_num)
  norm_num [List.getD] at h0

/-! ### Claim C6, counterexample -/

/-- C6 counterexample: at scores `[0.02, 0.1]`, labels `[0, 0]` there are no
positives, so "all positives ranked above all negatives" holds vacuously,
yet the average precision is `0`, not `1`: the claimed equivalence fails on
this valid input. -/
theorem averagePrecision_one_iff_cex :
    ¬ (PrecisionRecallCurve.AveragePrecision (buildPRC [(1:ℚ)/50, 1/10] [0, 0]) = 1 ↔
       ∀ i ∈ (argsort [(1:ℚ)/50, 1/10]).reverse.take
          (buildPRC [(1:ℚ)/50, 1/10] [0, 0]).positives, (0:ℚ) < [(0:ℚ), 0].getD i 0) := by
  have hc : buildPRC [(1:ℚ)/50, 1/10] [0, 0] = ⟨[1], [0], [], 0⟩ := by
    norm_num [buildPRC, List.countP, List.countP.go]
  intro hiff
  rw [hc] at hiff
  have h1 := hiff.mpr (by intro i hi; simp at hi)
  norm_num [PrecisionRecallCurve.AveragePrecision] at h1


/-! ### prSteps: structural lemmas -/

theorem nextHits_ge (lab : List ℚ) (i hits : ℕ) : hits ≤ nextHits lab i hits := by
  rw [nextHits]; split <;> omega

theorem nextHits_le (lab : List ℚ) (i hits : ℕ) : nextHits lab i hits ≤ hits + 1 := by
  rw [nextHits]; split <;> omega

theorem getLastD_of_ne_nil {α : Type} (l : List α) (h : l ≠ []) (d d' : α) :
    l.getLastD d = l.getLastD d' := by
  cases l with
  | nil => exact absurd rfl h
  | cons a t => rfl

theorem nextHits_split (lab : List ℚ) (i hits : ℕ) :
    nextHits lab i hits = hits + nextHits lab i 0 := by
  simp only [nextHits]; split <;> omega

theorem countP_cons_getD (lab : List ℚ) (i : ℕ) (rest : List ℕ) :
    (i :: rest).countP (fun j => decide (0 < lab.getD j 0)) =
      rest.countP (fun j => decide (0 < lab.getD j 0)) + nextHits lab i 0 := by
  rw [List.countP_cons, nextHits]
  by_cases hpos : 0 < lab.getD i 0
  · simp [hpos]
  · simp [hpos]

theorem prSteps_length_le (lab : List ℚ) (P : ℕ) (l : List Nat) :
    ∀ hits k : ℕ, (prSteps lab P l hits k).length ≤ l.length := by
  induction l with
  | nil => intro hits k; simp [prSteps]
  | cons i rest ih =>
    intro hits k
    rw [prSteps]
    split
    · simp [List.length_cons]
    · simpa [List.length_cons] using ih (nextHits lab i hits) (k + 1)

theorem prSteps_break (lab : List ℚ) (P : ℕ) (hP : 0 < P) (l : List Nat) :
    ∀ hits k : ℕ, hits < P →
      P ≤ hits + l.countP (fun j => decide (0 < lab.getD j 0)) →
      ((prSteps lab P l hits k).map Prod.snd).getLastD 0 = 1 ∧
      P ≤ hits + (prSteps lab P l hits k).length := by
  have hP0 : ((P : ℚ)) ≠ 0 := by
    exact_mod_cast Nat.pos_iff_ne_zero.mp hP
  induction l with
  | nil => intro hits k h1 h2; rw [List.countP_nil] at h2; omega
  | cons i rest ih =>
    intro hits k h1 h2
    rw [prSteps]
    by_cases hbr : ((nextHits lab i hits : ℚ) / (P : ℚ)) = 1
    · rw [if_pos hbr]
      have hNat : nextHits lab i hits = P := by
        exact_mod_cast (div_eq_one_iff_eq hP0).mp hbr
      have := nextHits_le lab i hits
      exact ⟨by simp [hbr], by simp [List.length_cons]; omega⟩
    · rw [if_neg hbr]
      have hle : nextHits lab i hits ≤ P := by
        have := nextHits_le lab i hits; omega
      have hlt : nextHits lab i hits < P := by
        rcases Nat.lt_or_ge (nextHits lab i hits) P with h | h
        · exact h
        · exact absurd ((div_eq_one_iff_eq hP0).mpr (by exact_mod_cast le_antisymm hle h)) hbr
      have hreach : P ≤ nextHits lab i hits + rest.countP (fun j => decide (0 < lab.getD j 0)) := by
        have hc := countP_cons_getD lab i rest
        have hn := nextHits_split lab i hits
        omega
      obtain ⟨ih1, ih2⟩ := ih (nextHits lab i hits) (k + 1) hlt hreach
      have hne : prSteps lab P rest (nextHits lab i hits) (k + 1) ≠ [] := by
        intro hnil
        rw [hnil] at ih2
        simp at ih2
        omega
      constructor
      · rw [List.map_cons, List.getLastD_cons]
        rw [getLastD_of_ne_nil _ (by simpa using hne) _ 0]
        exact ih1
      · have := nextHits_le lab i hits
        rw [List.length_cons]; omega


/-! ### prSteps: monotonicity and bounds of the recorded values -/

theorem prSteps_snd_chain (lab : List ℚ) (P : ℕ) (hP : 0 < P) (l : List Nat) :
    ∀ hits k : ℕ, List.Chain' (· ≤ ·)
      (((hits : ℚ) / (P : ℚ)) :: (prSteps lab P l hits k).map Prod.snd) := by
  have hPq : (0 : ℚ) < (P : ℚ) := by exact_mod_cast hP
  induction l with
  | nil => intro hits k; simp [prSteps]
  | cons i rest ih =>
    intro hits k
    rw [prSteps]
    have hmono : (hits : ℚ) / (P : ℚ) ≤ (nextHits lab i hits : ℚ) / (P : ℚ) := by
      refine (div_le_div_right hPq).mpr ?_
      exact_mod_cast nextHits_ge lab i hits
    split
    · simp [List.chain'_cons, hmono]
    · rw [List.map_cons]
      exact List.chain'_cons.mpr ⟨hmono, ih (nextHits lab i hits) (k + 1)⟩

theorem prSteps_snd_bounds (lab : List ℚ) (P : ℕ) (hP : 0 < P) (l : List Nat) :
    ∀ hits k : ℕ, hits < P →
      ∀ r ∈ (prSteps lab P l hits k).map Prod.snd, 0 ≤ r ∧ r ≤ 1 := by
  have hPq : (0 : ℚ) < (P : ℚ) := by exact_mod_cast hP
  have hP0 : ((P : ℚ)) ≠ 0 := ne_of_gt hPq
  induction l with
  | nil => intro hits k h1; simp [prSteps]
  | cons i rest ih =>
    intro hits k h1 r hr
    have hub : nextHits lab i hits ≤ P := by
      have := nextHits_le lab i hits; omega
    have hval : 0 ≤ (nextHits lab i hits : ℚ) / (P : ℚ) ∧
        (nextHits lab i hits : ℚ) / (P : ℚ) ≤ 1 := by
      constructor
      · positivity
      · rw [div_le_one hPq]; exact_mod_cast hub
    rw [prSteps] at hr
    by_cases hbr : ((nextHits lab i hits : ℚ) / (P : ℚ)) = 1
    · rw [if_pos hbr] at hr
      simp at hr
      rw [hr]
      exact hval
    · rw [if_neg hbr] at hr
      rw [List.map_cons] at hr
      rcases List.mem_cons.mp hr with h | h
      · rw [h]; exact hval
      · have hlt : nextHits lab i hits < P := by
          rcases Nat.lt_or_ge (nextHits lab i hits) P with h' | h'
          · exact h'
          · exact absurd ((div_eq_one_iff_eq hP0).mpr
              (by exact_mod_cast le_antisymm hub h')) hbr
        exact ih (nextHits lab i hits) (k + 1) hlt r h

theorem prSteps_fst_bounds (lab : List ℚ) (P : ℕ) (l : List Nat) :
    ∀ hits k : ℕ, hits ≤ k →
      ∀ q ∈ (prSteps lab P l hits k).map Prod.fst, 0 ≤ q ∧ q ≤ 1 := by
  induction l with
  | nil => intro hits k h1; simp [prSteps]
  | cons i rest ih =>
    intro hits k h1 q hq
    have hub : nextHits lab i hits ≤ k + 1 := by
      have := nextHits_le lab i hits; omega
    have hkq : (0 : ℚ) < (k : ℚ) + 1 := by positivity
    have hval : 0 ≤ (nextHits lab i hits : ℚ) / ((k : ℚ) + 1) ∧
        (nextHits lab i hits : ℚ) / ((k : ℚ) + 1) ≤ 1 := by
      constructor
      · positivity
      · rw [div_le_one hkq]
        exact_mod_cast hub
    rw [prSteps] at hq
    split at hq
    · simp at hq
      rw [hq]
      exact hval
    · rw [List.map_cons] at hq
      rcases List.mem_cons.mp hq with h | h
      · rw [h]; exact hval
      · exact ih (nextHits lab i hits) (k + 1)
          (by have := nextHits_le lab i hits; omega) q h

/-! ### apF: sign and telescoping bounds -/

theorem apF_nonneg (S : List (ℚ × ℚ)) :
    ∀ prev : ℚ, List.Chain' (· ≤ ·) (prev :: S.map Prod.snd) →
      (∀ q ∈ S.map Prod.fst, 0 ≤ q) → 0 ≤ apF prev S := by
  induction S with
  | nil => intro prev _ _; simp [apF]
  | cons x T ih =>
    intro prev hch hp
    obtain ⟨q, r⟩ := x
    rw [List.map_cons] at hch hp
    rw [apF]
    have h1 : prev ≤ r := (List.chain'_cons.mp hch).1
    have h2 : 0 ≤ q := hp q (List.mem_cons_self _ _)
    have h3 := ih r (List.chain'_cons.mp hch).2
      (fun q' hq' => hp q' (List.mem_cons_of_mem _ hq'))
    have := mul_nonneg (sub_nonneg.mpr h1) h2
    linarith

theorem apF_le (S : List (ℚ × ℚ)) :
    ∀ prev : ℚ, List.Chain' (· ≤ ·) (prev :: S.map Prod.snd) →
      (∀ q ∈ S.map Prod.fst, q ≤ 1) →
      apF prev S ≤ (S.map Prod.snd).getLastD prev - prev := by
  induction S with
  | nil => intro prev _ _; simp [apF]
  | cons x T ih =>
    intro prev hch hp
    obtain ⟨q, r⟩ := x
    rw [List.map_cons] at hch hp ⊢
    rw [apF, List.getLastD_cons]
    have h1 : prev ≤ r := (List.chain'_cons.mp hch).1
    have h2 : q ≤ 1 := hp q (List.mem_cons_self _ _)
    have h3 := ih r (List.chain'_cons.mp hch).2
      (fun q' hq' => hp q' (List.mem_cons_of_mem _ hq'))
    have h4 : (r - prev) * q ≤ r - prev :=
      mul_le_of_le_one_right (sub_nonneg.mpr h1) h2
    linarith

theorem getLastD_le_one (L : List ℚ) :
    ∀ d : ℚ, d ≤ 1 → (∀ r ∈ L, r ≤ 1) → L.getLastD d ≤ 1 := by
  induction L with
  | nil => intro d hd _; exact hd
  | cons a t ih =>
    intro d _ h
    rw [List.getLastD_cons]
    exact ih a (h a (List.mem_cons_self _ _)) (fun r hr => h r (List.mem_cons_of_mem _ hr))


/-! ### apF over prSteps: upper bounds and the all-hits exact value -/

theorem prSteps_apF_le (lab : List ℚ) (P : ℕ) (hP : 0 < P) (l : List Nat)
    (hits k : ℕ) (h1 : hits < P) (h2 : hits ≤ k) :
    apF ((hits : ℚ) / (P : ℚ)) (prSteps lab P l hits k) ≤ 1 - (hits : ℚ) / (P : ℚ) := by
  have hPq : (0 : ℚ) < (P : ℚ) := by exact_mod_cast hP
  have hch := prSteps_snd_chain lab P hP l hits k
  have hle := apF_le (prSteps lab P l hits k) _ hch
    (fun q hq => (prSteps_fst_bounds lab P l hits k h2 q hq).2)
  have hseed : (hits : ℚ) / (P : ℚ) ≤ 1 := by
    rw [div_le_one hPq]; exact_mod_cast le_of_lt h1
  have hlast := getLastD_le_one ((prSteps lab P l hits k).map Prod.snd) _ hseed
    (fun r hr => (prSteps_snd_bounds lab P hP l hits k h1 r hr).2)
  linarith

theorem prSteps_allhits (lab : List ℚ) (P : ℕ) (hP : 0 < P) (l : List Nat) :
    ∀ hits : ℕ, hits < P →
      (∀ j ∈ l.take (P - hits), 0 < lab.getD j 0) → P - hits ≤ l.length →
      apF ((hits : ℚ) / (P : ℚ)) (prSteps lab P l hits hits) = 1 - (hits : ℚ) / (P : ℚ) := by
  have hPq : (0 : ℚ) < (P : ℚ) := by exact_mod_cast hP
  have hP0 : ((P : ℚ)) ≠ 0 := ne_of_gt hPq
  induction l with
  | nil => intro hits h1 h3 h4; simp at h4; omega
  | cons i rest ih =>
    intro hits h1 h3 h4
    have hwin : P - hits = (P - (hits + 1)) + 1 := by omega
    have hipos : 0 < lab.getD i 0 := by
      apply h3 i
      rw [hwin, List.take_succ_cons]
      exact List.mem_cons_self _ _
    have hnh : nextHits lab i hits = hits + 1 := by rw [nextHits, if_pos hipos]
    rw [prSteps, hnh]
    have hp1 : (((hits + 1 : ℕ)) : ℚ) / ((hits : ℚ) + 1) = 1 := by
      push_cast
      exact div_self (by positivity)
    by_cases hbr : (((hits + 1 : ℕ)) : ℚ) / (P : ℚ) = 1
    · rw [if_pos hbr, apF, apF, hp1, hbr]
      ring
    · rw [if_neg hbr, apF]
      have h1' : hits + 1 < P := by
        rcases eq_or_lt_of_le (Nat.succ_le_of_lt h1) with he | hl
        · exact absurd ((div_eq_one_iff_eq hP0).mpr (by exact_mod_cast he)) hbr
        · exact hl
      have h3' : ∀ j ∈ rest.take (P - (hits + 1)), 0 < lab.getD j 0 := by
        intro j hj
        apply h3 j
        rw [hwin, List.take_succ_cons]
        exact List.mem_cons_of_mem _ hj
      have h4' : P - (hits + 1) ≤ rest.length := by
        rw [List.length_cons] at h4; omega
      rw [hp1, ih (hits + 1) h1' h3' h4']
      push_cast
      ring

theorem prSteps_apF_lt_late (lab : List ℚ) (P : ℕ) (hP : 0 < P) (l : List Nat) :
    ∀ hits k : ℕ, hits < P → hits < k →
      P ≤ hits + l.countP (fun j => decide (0 < lab.getD j 0)) →
      apF ((hits : ℚ) / (P : ℚ)) (prSteps lab P l hits k) < 1 - (hits : ℚ) / (P : ℚ) := by
  have hPq : (0 : ℚ) < (P : ℚ) := by exact_mod_cast hP
  have hP0 : ((P : ℚ)) ≠ 0 := ne_of_gt hPq
  induction l with
  | nil => intro hits k h1 h2 h3; rw [List.countP_nil] at h3; omega
  | cons i rest ih =>
    intro hits k h1 h2 h3
    rw [prSteps]
    by_cases hipos : 0 < lab.getD i 0
    · have hnh : nextHits lab i hits = hits + 1 := by rw [nextHits, if_pos hipos]
      rw [hnh]
      have hsucc : (hits : ℚ) + 1 ≤ (k : ℚ) := by exact_mod_cast h2
      have hprec_lt : (((hits + 1 : ℕ)) : ℚ) / ((k : ℚ) + 1) < 1 := by
        rw [div_lt_one (by positivity)]
        push_cast
        linarith
      have hprec_nonneg : 0 ≤ (((hits + 1 : ℕ)) : ℚ) / ((k : ℚ) + 1) := by positivity
      by_cases hbr : (((hits + 1 : ℕ)) : ℚ) / (P : ℚ) = 1
      · rw [if_pos hbr, apF, apF, hbr]
        have hprev : (hits : ℚ) / (P : ℚ) < 1 := by
          rw [div_lt_one hPq]; exact_mod_cast h1
        have := mul_lt_of_lt_one_right
          (a := 1 - (hits : ℚ) / (P : ℚ)) (by linarith) hprec_lt
        linarith
      · rw [if_neg hbr, apF]
        have h1' : hits + 1 < P := by
          have hle : hits + 1 ≤ P := Nat.succ_le_of_lt h1
          rcases eq_or_lt_of_le hle with he | hl
          · exact absurd ((div_eq_one_iff_eq hP0).mpr (by exact_mod_cast he)) hbr
          · exact hl
        have h3' : P ≤ (hits + 1) + rest.countP (fun j => decide (0 < lab.getD j 0)) := by
          have hc := countP_cons_getD lab i rest
          have hone : nextHits lab i 0 = 1 := by rw [nextHits, if_pos hipos]
          omega
        have hIH := ih (hits + 1) (k + 1) h1' (by omega) h3'
        have hprev_le : (hits : ℚ) / (P : ℚ) ≤ (((hits + 1 : ℕ)) : ℚ) / (P : ℚ) := by
          refine (div_le_div_right hPq).mpr ?_
          exact_mod_cast Nat.le_succ hits
        have hterm := mul_le_of_le_one_right
          (sub_nonneg.mpr hprev_le) (le_of_lt hprec_lt)
        linarith
    · have hnh : nextHits lab i hits = hits := by rw [nextHits, if_neg hipos]
      rw [hnh]
      have hbr : ¬((hits : ℚ) / (P : ℚ) = 1) := by
        rw [div_eq_one_iff_eq hP0]
        exact_mod_cast Nat.ne_of_lt h1
      rw [if_neg hbr, apF]
      have h3' : P ≤ hits + rest.countP (fun j => decide (0 < lab.getD j 0)) := by
        have hc := countP_cons_getD lab i rest
        have hzero : nextHits lab i 0 = 0 := by rw [nextHits, if_neg hipos]
        omega
      have hIH := ih hits (k + 1) h1 (by omega) h3'
      simpa using hIH

theorem prSteps_apF_lt_miss (lab : List ℚ) (P : ℕ) (hP : 0 < P) (l : List Nat) :
    ∀ hits : ℕ, hits < P →
      P ≤ hits + l.countP (fun j => decide (0 < lab.getD j 0)) →
      (∃ j ∈ l.take (P - hits), ¬0 < lab.getD j 0) →
      apF ((hits : ℚ) / (P : ℚ)) (prSteps lab P l hits hits) < 1 - (hits : ℚ) / (P : ℚ) := by
  have hPq : (0 : ℚ) < (P : ℚ) := by exact_mod_cast hP
  have hP0 : ((P : ℚ)) ≠ 0 := ne_of_gt hPq
  induction l with
  | nil => intro hits h1 h3 h4; rw [List.countP_nil] at h3; omega
  | cons i rest ih =>
    intro hits h1 h3 h4
    rw [prSteps]
    by_cases hipos : 0 < lab.getD i 0
    · have hnh : nextHits lab i hits = hits + 1 := by rw [nextHits, if_pos hipos]
      rw [hnh]
      have hwin : P - hits = (P - (hits + 1)) + 1 := by omega
      have h4' : ∃ j ∈ rest.take (P - (hits + 1)), ¬0 < lab.getD j 0 := by
        obtain ⟨j, hj, hjneg⟩ := h4
        rw [hwin, List.take_succ_cons] at hj
        rcases List.mem_cons.mp hj with he | hj'
        · rw [he] at hjneg
          exact absurd hipos hjneg
        · exact ⟨j, hj', hjneg⟩
      by_cases hbr : (((hits + 1 : ℕ)) : ℚ) / (P : ℚ) = 1
      · exfalso
        have hPeq : hits + 1 = P := by
          exact_mod_cast (div_eq_one_iff_eq hP0).mp hbr
        obtain ⟨j, hj, _⟩ := h4'
        rw [show P - (hits + 1) = 0 by omega] at hj
        simp at hj
      · rw [if_neg hbr, apF]
        have h1' : hits + 1 < P := by
          rcases eq_or_lt_of_le (Nat.succ_le_of_lt h1) with he | hl
          · exact absurd ((div_eq_one_iff_eq hP0).mpr (by exact_mod_cast he)) hbr
          · exact hl
        have h3' : P ≤ (hits + 1) + rest.countP (fun j => decide (0 < lab.getD j 0)) := by
          have hc := countP_cons_getD lab i rest
          have hone : nextHits lab i 0 = 1 := by rw [nextHits, if_pos hipos]
          omega
        have hIH := ih (hits + 1) h1' h3' h4'
        have hp1 : (((hits + 1 : ℕ)) : ℚ) / ((hits : ℚ) + 1) = 1 := by
          push_cast
          exact div_self (by positivity)
        rw [hp1, mul_one]
        linarith
    · have hnh : nextHits lab i hits = hits := by rw [nextHits, if_neg hipos]
      rw [hnh]
      have hbr : ¬((hits : ℚ) / (P : ℚ) = 1) := by
        rw [div_eq_one_iff_eq hP0]
        exact_mod_cast Nat.ne_of_lt h1
      rw [if_neg hbr, apF]
      have h3' : P ≤ hits + rest.countP (fun j => decide (0 < lab.getD j 0)) := by
        have hc := countP_cons_getD lab i rest
        have hzero : nextHits lab i 0 = 0 := by rw [nextHits, if_neg hipos]
        omega
      have hlt := prSteps_apF_lt_late lab P hP rest hits (hits + 1) h1 (by omega) h3'
      simpa using hlt


/-! ### Bridging the indexed average-precision sum to the forward recursion -/

theorem pairSum_nil : pairSum [] = 0 := rfl

theorem pairSum_single (a b : ℚ) : pairSum [(a, b)] = 0 := rfl

theorem pairSum_cons_cons (a b c d : ℚ) (t : List (ℚ × ℚ)) :
    pairSum ((a, b) :: (c, d) :: t) = (d - b) * a + pairSum ((c, d) :: t) := rfl

theorem pairSum_append_pair (L : List (ℚ × ℚ)) :
    ∀ u v : ℚ × ℚ, pairSum (L ++ [u, v]) = pairSum (L ++ [u]) + (v.2 - u.2) * u.1 := by
  induction L with
  | nil =>
    intro u v
    obtain ⟨a, b⟩ := u
    obtain ⟨c, d⟩ := v
    rw [List.nil_append, List.nil_append, pairSum_cons_cons, pairSum_single, pairSum_single]
    ring
  | cons w T ih =>
    intro u v
    obtain ⟨a, b⟩ := w
    cases T with
    | nil =>
      obtain ⟨c, d⟩ := u
      obtain ⟨e, f⟩ := v
      rw [show (((a, b) :: []) ++ [((c : ℚ), (d : ℚ)), (e, f)]) =
          (a, b) :: (c, d) :: [(e, f)] from rfl,
        show (((a, b) :: []) ++ [((c : ℚ), (d : ℚ))]) = (a, b) :: [(c, d)] from rfl,
        pairSum_cons_cons, pairSum_cons_cons, pairSum_cons_cons, pairSum_single,
        pairSum_single]
      ring
    | cons x T' =>
      obtain ⟨c, d⟩ := x
      rw [show (((a, b) :: (c, d) :: T') ++ [u, v]) =
          (a, b) :: (c, d) :: (T' ++ [u, v]) from by simp,
        show (((a, b) :: (c, d) :: T') ++ [u]) =
          (a, b) :: (c, d) :: (T' ++ [u]) from by simp,
        pairSum_cons_cons, pairSum_cons_cons,
        show ((c, d) :: (T' ++ [u, v])) = ((c, d) :: T') ++ [u, v] from by simp,
        show ((c, d) :: (T' ++ [u])) = ((c, d) :: T') ++ [u] from by simp,
        ih u v]
      ring

theorem pairSum_reverse_apF (S : List (ℚ × ℚ)) :
    ∀ u : ℚ × ℚ, pairSum (S.reverse ++ [u]) = -apF u.2 S := by
  induction S with
  | nil =>
    intro u
    obtain ⟨a, b⟩ := u
    rw [List.reverse_nil, List.nil_append, pairSum_single, apF]
    ring
  | cons x T ih =>
    intro u
    obtain ⟨q, r⟩ := x
    rw [List.reverse_cons, List.append_assoc,
      show [((q : ℚ), (r : ℚ))] ++ [u] = [(q, r), u] from rfl, pairSum_append_pair,
      ih (q, r), apF]
    ring

theorem apIndexed_eq_pairSum (Pl : List ℚ) :
    ∀ Rl : List ℚ, Pl.length = Rl.length →
      ((List.range (Pl.length - 1)).map
        (fun i => (Rl.getD (i + 1) 0 - Rl.getD i 0) * Pl.getD i 0)).sum =
      pairSum (Pl.zip Rl) := by
  induction Pl with
  | nil => intro Rl h; rw [List.length_nil, List.zip_nil_left, pairSum_nil]; simp
  | cons x Pl' ihP =>
    intro Rl h
    cases Rl with
    | nil => simp at h
    | cons u Rl' =>
      cases Pl' with
      | nil =>
        cases Rl' with
        | nil =>
          rw [List.zip_cons_cons, List.zip_nil_left, pairSum_single]
          simp
        | cons v Rl'' => simp at h
      | cons y Pl'' =>
        cases Rl' with
        | nil => simp at h
        | cons v Rl'' =>
          have h' : (y :: Pl'').length = (v :: Rl'').length := by
            simp only [List.length_cons] at h ⊢
            omega
          rw [show (x :: y :: Pl'').length - 1 = ((y :: Pl'').length - 1) + 1 from by
            simp only [List.length_cons]; omega]
          rw [List.range_succ_eq_map, List.map_cons, List.sum_cons, List.map_map]
          rw [List.map_congr_left (g := fun i =>
              ((v :: Rl'').getD (i + 1) 0 - (v :: Rl'').getD i 0) * ((y :: Pl'').getD i 0))
            (fun i _ => by simp [Function.comp, List.getD_cons_succ])]
          rw [ihP (v :: Rl'') h']
          simp only [List.zip_cons_cons]
          rw [pairSum_cons_cons]
          simp [List.getD_cons_succ, List.getD_cons_zero]

theorem getD_range_map (l : List ℚ) :
    (List.range l.length).map (fun i => l.getD i 0) = l := by
  induction l with
  | nil => simp
  | cons x t ih =>
    rw [List.length_cons, List.range_succ_eq_map, List.map_cons, List.map_map]
    rw [List.map_congr_left (g := fun i => t.getD i 0)
      (fun i _ => by simp [Function.comp, List.getD_cons_succ])]
    rw [ih]
    rfl

theorem countP_walk (p lab : List ℚ) (h : p.length = lab.length) :
    ((argsort p).reverse).countP (fun j => decide (0 < lab.getD j 0)) =
      lab.countP (fun x => decide (0 < x)) := by
  have h1 : List.Perm ((argsort p).reverse) (List.range lab.length) :=
    (List.reverse_perm _).trans ((argsort_perm p).trans (by rw [h]))
  rw [h1.countP_eq]
  conv_rhs => rw [← getD_range_map lab]
  rw [List.countP_map]
  rfl

theorem averagePrecision_eq_apF (p lab : List ℚ)
    (hpos : lab.countP (fun x => decide (0 < x)) ≠ 0) :
    (buildPRC p lab).AveragePrecision =
      apF 0 (prSteps lab (lab.countP (fun x => decide (0 < x)))
        (argsort p).reverse 0 0) := by
  rw [buildPRC, if_neg hpos, PrecisionRecallCurve.AveragePrecision]
  dsimp only
  rw [apIndexed_eq_pairSum _ _ (by simp)]
  rw [show ((prSteps lab (lab.countP (fun x => decide (0 < x)))
        (argsort p).reverse 0 0).map Prod.fst).reverse ++ [1] =
      ((prSteps lab (lab.countP (fun x => decide (0 < x)))
        (argsort p).reverse 0 0).reverse.map Prod.fst) ++ [1] from by
    rw [List.map_reverse]]
  rw [show ((prSteps lab (lab.countP (fun x => decide (0 < x)))
        (argsort p).reverse 0 0).map Prod.snd).reverse ++ [0] =
      ((prSteps lab (lab.countP (fun x => decide (0 < x)))
        (argsort p).reverse 0 0).reverse.map Prod.snd) ++ [0] from by
    rw [List.map_reverse]]
  rw [List.zip_append (by simp), List.zip_map']
  rw [show (fun a : ℚ × ℚ => (a.1, a.2)) = id from funext (fun a => rfl), List.map_id]
  rw [show List.zip [(1 : ℚ)] [(0 : ℚ)] = [((1 : ℚ), (0 : ℚ))] from rfl]
  rw [pairSum_reverse_apF]
  simp


/-! ### Claim C1, amended -/

/-- C1 amended: for every valid (equal-length) input, the `Recall` sequence
of the constructed curve is non-increasing when read from index 0 to its
last element (the code records recall from the highest-scored item downward
and then reverses, so the stored sequence decreases towards the final `0`
anchor). -/
theorem recall_nonincreasing (p lab : List ℚ) (h : p.length = lab.length) :
    ∀ i, i + 1 < (buildPRC p lab).Recall.length →
      (buildPRC p lab).Recall.getD (i + 1) 0 ≤ (buildPRC p lab).Recall.getD i 0 := by
  have hch : List.Chain' (fun a b => b ≤ a) (buildPRC p lab).Recall := by
    by_cases hpos : lab.countP (fun x => decide (0 < x)) = 0
    · rw [buildPRC, if_pos hpos]
      simp
    · rw [buildPRC, if_neg hpos]
      dsimp only
      have hc := prSteps_snd_chain lab _ (Nat.pos_of_ne_zero hpos) (argsort p).reverse 0 0
      simp only [Nat.cast_zero, zero_div] at hc
      rw [show ((prSteps lab (lab.countP (fun x => decide (0 < x)))
            (argsort p).reverse 0 0).map Prod.snd).reverse ++ [(0 : ℚ)] =
          ((0 : ℚ) :: (prSteps lab (lab.countP (fun x => decide (0 < x)))
            (argsort p).reverse 0 0).map Prod.snd).reverse from by
        rw [List.reverse_cons]]
      rw [List.chain'_reverse]
      exact hc
  intro i hi
  have hgot := List.chain'_iff_get.mp hch i (by omega)
  rw [List.getD_eq_get ((buildPRC p lab).Recall) 0 hi,
    List.getD_eq_get ((buildPRC p lab).Recall) 0 (show i < _ by omega)]
  exact hgot

/-- Witness for C1 (amended) at the C4 scenario input. -/
theorem recall_nonincreasing_witness :
    (buildPRC [1/10, 2/5, 7/20, 4/5] [0, 0, 1, 1]).Recall.getD (0 + 1) 0 ≤
      (buildPRC [1/10, 2/5, 7/20, 4/5] [0, 0, 1, 1]).Recall.getD 0 0 :=
  recall_nonincreasing [1/10, 2/5, 7/20, 4/5] [0, 0, 1, 1] rfl 0
    (by norm_num [buildPRC, prSteps, nextHits, argsort, List.insertionSort,
      List.orderedInsert, List.range_succ, List.countP, List.countP.go])

/-! ### Claim C3 -/

/-- C3: for every valid (equal-length) input the curve has
`len(Precision) = len(Recall)`, its last precision is `1` and last recall
`0` (the anchor point), and `len(Thresholds) = len(Precision) − 1`; this
covers the degenerate zero-positives case and the general case. -/
theorem curve_shape (p lab : List ℚ) (h : p.length = lab.length) :
    (buildPRC p lab).Precision.length = (buildPRC p lab).Recall.length ∧
    (buildPRC p lab).Precision.getLast? = some 1 ∧
    (buildPRC p lab).Recall.getLast? = some 0 ∧
    (buildPRC p lab).Thresholds.length = (buildPRC p lab).Precision.length - 1 := by
  by_cases hpos : lab.countP (fun x => decide (0 < x)) = 0
  · rw [buildPRC, if_pos hpos]
    exact ⟨rfl, rfl, rfl, rfl⟩
  · rw [buildPRC, if_neg hpos]
    dsimp only
    have hS : (prSteps lab (lab.countP (fun x => decide (0 < x)))
        (argsort p).reverse 0 0).length ≤ p.length := by
      have h1 := prSteps_length_le lab (lab.countP (fun x => decide (0 < x)))
        (argsort p).reverse 0 0
      rwa [List.length_reverse, argsort_length] at h1
    refine ⟨by simp, List.getLast?_concat _, List.getLast?_concat _, ?_⟩
    rw [List.length_drop]
    simp only [List.length_map, List.length_reverse, List.length_append,
      List.length_cons, List.length_nil, argsort_length]
    omega

/-- Witness for C3 at the C4 scenario input. -/
theorem curve_shape_witness :
    (buildPRC [(1:ℚ)/10, 2/5, 7/20, 4/5] [0, 0, 1, 1]).Precision.length =
      (buildPRC [(1:ℚ)/10, 2/5, 7/20, 4/5] [0, 0, 1, 1]).Recall.length ∧
    (buildPRC [(1:ℚ)/10, 2/5, 7/20, 4/5] [0, 0, 1, 1]).Precision.getLast? = some 1 ∧
    (buildPRC [(1:ℚ)/10, 2/5, 7/20, 4/5] [0, 0, 1, 1]).Recall.getLast? = some 0 ∧
    (buildPRC [(1:ℚ)/10, 2/5, 7/20, 4/5] [0, 0, 1, 1]).Thresholds.length =
      (buildPRC [(1:ℚ)/10, 2/5, 7/20, 4/5] [0, 0, 1, 1]).Precision.length - 1 :=
  curve_shape [(1:ℚ)/10, 2/5, 7/20, 4/5] [0, 0, 1, 1] rfl

/-! ### Claim C6, amended -/

/-- C6 amended: for every valid (equal-length) input the average precision
lies in `[0, 1]`; and when at least one positive label exists, it equals
exactly `1` if and only if every item among the first `positives` entries of
the descending walk order is positive-labelled (all positives ranked above
all negatives).  With zero positives the average precision is `0`, so the
equivalence needs the positives-exist hypothesis. -/
theorem averagePrecision_bounds_one_iff (p lab : List ℚ) (h : p.length = lab.length) :
    0 ≤ (buildPRC p lab).AveragePrecision ∧ (buildPRC p lab).AveragePrecision ≤ 1 ∧
    (0 < (buildPRC p lab).positives →
      ((buildPRC p lab).AveragePrecision = 1 ↔
        ∀ j ∈ (argsort p).reverse.take (buildPRC p lab).positives,
          0 < lab.getD j 0)) := by
  by_cases hpos : lab.countP (fun x => decide (0 < x)) = 0
  · have hfield : (buildPRC p lab).positives = 0 := by rw [buildPRC, if_pos hpos]
    have hAP : (buildPRC p lab).AveragePrecision = 0 := by
      rw [buildPRC, if_pos hpos, PrecisionRecallCurve.AveragePrecision]
      norm_num
    rw [hAP, hfield]
    exact ⟨le_refl 0, by norm_num, fun h0 => absurd h0 (by omega)⟩
  · have hP : 0 < lab.countP (fun x => decide (0 < x)) := Nat.pos_of_ne_zero hpos
    have hbridge := averagePrecision_eq_apF p lab hpos
    have hfield : (buildPRC p lab).positives = lab.countP (fun x => decide (0 < x)) := by
      rw [buildPRC, if_neg hpos]
    have hch := prSteps_snd_chain lab _ hP (argsort p).reverse 0 0
    simp only [Nat.cast_zero, zero_div] at hch
    have hnn : 0 ≤ apF 0 (prSteps lab (lab.countP (fun x => decide (0 < x)))
        (argsort p).reverse 0 0) :=
      apF_nonneg _ 0 hch
        (fun q hq => (prSteps_fst_bounds lab _ (argsort p).reverse 0 0
          (le_refl 0) q hq).1)
    have hub := prSteps_apF_le lab _ hP (argsort p).reverse 0 0 hP (le_refl 0)
    simp only [Nat.cast_zero, zero_div] at hub
    refine ⟨hbridge ▸ hnn, by rw [hbridge]; linarith, fun _ => ?_⟩
    rw [hbridge, hfield]
    constructor
    · intro hap
      by_contra hneg
      push_neg at hneg
      obtain ⟨j, hj, hjneg⟩ := hneg
      have hmiss := prSteps_apF_lt_miss lab _ hP (argsort p).reverse 0 hP
        (by rw [countP_walk p lab h]; omega)
        ⟨j, by simpa using hj, not_lt.mpr hjneg⟩
      simp only [Nat.cast_zero, zero_div] at hmiss
      linarith
    · intro hall
      have hlen : lab.countP (fun x => decide (0 < x)) - 0 ≤
          (argsort p).reverse.length := by
        rw [List.length_reverse, argsort_length, h]
        have := List.countP_le_length (p := fun x => decide (0 < x)) (l := lab)
        omega
      have hexact := prSteps_allhits lab _ hP (argsort p).reverse 0 hP
        (by simpa using hall) hlen
      simp only [Nat.cast_zero, zero_div] at hexact
      rw [hexact]
      norm_num

/-- Witness for C6 (amended) at the C4 scenario input. -/
theorem averagePrecision_bounds_one_iff_witness :
    0 ≤ (buildPRC [(1:ℚ)/10, 2/5, 7/20, 4/5] [0, 0, 1, 1]).AveragePrecision ∧
    (buildPRC [(1:ℚ)/10, 2/5, 7/20, 4/5] [0, 0, 1, 1]).AveragePrecision ≤ 1 ∧
    (0 < (buildPRC [(1:ℚ)/10, 2/5, 7/20, 4/5] [0, 0, 1, 1]).positives →
      ((buildPRC [(1:ℚ)/10, 2/5, 7/20, 4/5] [0, 0, 1, 1]).AveragePrecision = 1 ↔
        ∀ j ∈ (argsort [(1:ℚ)/10, 2/5, 7/20, 4/5]).reverse.take
            (buildPRC [(1:ℚ)/10, 2/5, 7/20, 4/5] [0, 0, 1, 1]).positives,
          0 < [(0:ℚ), 0, 1, 1].getD j 0)) :=
  averagePrecision_bounds_one_iff [(1:ℚ)/10, 2/5, 7/20, 4/5] [0, 0, 1, 1] rfl

/-! ### Claim C10 -/

/-- C10: for every valid (equal-length) input, the index
`len(Precision) − 1 − positives` used by `RPrecision` is non-negative (the
recording loop performs at least `positives` steps before the anchor is
appended), so `RPrecision` never reads out of bounds; in the degenerate
zero-positives case the index is `0` and `RPrecision` returns `1`. -/
theorem rPrecision_index_safe (p lab : List ℚ) (h : p.length = lab.length) :
    (buildPRC p lab).positives + 1 ≤ (buildPRC p lab).Precision.length ∧
    (0 : ℤ) ≤ ((buildPRC p lab).Precision.length : ℤ) - 1 -
      ((buildPRC p lab).positives : ℤ) ∧
    ((buildPRC p lab).positives = 0 →
      (buildPRC p lab).Precision.length - 1 - (buildPRC p lab).positives = 0 ∧
      (buildPRC p lab).RPrecision = 1) := by
  by_cases hpos : lab.countP (fun x => decide (0 < x)) = 0
  · rw [buildPRC, if_pos hpos]
    exact ⟨by decide, by decide, fun _ => ⟨rfl, rfl⟩⟩
  · rw [buildPRC, if_neg hpos]
    dsimp only
    have hP : 0 < lab.countP (fun x => decide (0 < x)) := Nat.pos_of_ne_zero hpos
    have hbreak := prSteps_break lab _ hP (argsort p).reverse 0 0 hP
      (by rw [countP_walk p lab h]; omega)
    have hlen : lab.countP (fun x => decide (0 < x)) ≤
        (prSteps lab (lab.countP (fun x => decide (0 < x)))
          (argsort p).reverse 0 0).length := by
      have := hbreak.2
      omega
    refine ⟨?_, ?_, fun h0 => absurd h0 hpos⟩
    · simp only [List.length_append, List.length_reverse, List.length_map,
        List.length_cons, List.length_nil]
      omega
    · simp only [List.length_append, List.length_reverse, List.length_map,
        List.length_cons, List.length_nil]
      push_cast
      omega

/-- Witness for C10 at the C4 scenario input. -/
theorem rPrecision_index_safe_witness :
    (buildPRC [(1:ℚ)/10, 2/5, 7/20, 4/5] [0, 0, 1, 1]).positives + 1 ≤
      (buildPRC [(1:ℚ)/10, 2/5, 7/20, 4/5] [0, 0, 1, 1]).Precision.length ∧
    (0 : ℤ) ≤ ((buildPRC [(1:ℚ)/10, 2/5, 7/20, 4/5] [0, 0, 1, 1]).Precision.length : ℤ) -
      1 - ((buildPRC [(1:ℚ)/10, 2/5, 7/20, 4/5] [0, 0, 1, 1]).positives : ℤ) ∧
    ((buildPRC [(1:ℚ)/10, 2/5, 7/20, 4/5] [0, 0, 1, 1]).positives = 0 →
      (buildPRC [(1:ℚ)/10, 2/5, 7/20, 4/5] [0, 0, 1, 1]).Precision.length - 1 -
        (buildPRC [(1:ℚ)/10, 2/5, 7/20, 4/5] [0, 0, 1, 1]).positives = 0 ∧
      (buildPRC [(1:ℚ)/10, 2/5, 7/20, 4/5] [0, 0, 1, 1]).RPrecision = 1) :=
  rPrecision_index_safe [(1:ℚ)/10, 2/5, 7/20, 4/5] [0, 0, 1, 1] rfl

end Datautils
